import Mathlib

/-!
Verification of the quid unique-identifier allocator (src/src/lib.rs).

The allocator hands out 64-bit identifiers from a global atomic counter
(GLOBAL_NEXT_UID, advanced by fetch_add in batches of TH_ALLOC_STEP = 512)
combined with per-thread reservation state (UID_BASE, UID_REM).  We embed
the library shallowly: u64 arithmetic is Nat with explicit reduction
modulo 2 ^ 64 exactly where the Rust code can wrap (the fetch_add, which
is defined to wrap, and the value additions, which wrap in release
builds), thread-local storage becomes a map from a thread id to the cell
contents, and a concurrent execution becomes a schedule, i.e. the list of
thread ids in the order in which their calls to UID::new are linearized.
-/

/-- Modulus of the u64 type (2 ^ 64), written as a literal. -/
def U64 : Nat := 18446744073709551616

/-- Batch size constant TH_ALLOC_STEP from the source. -/
def TH_ALLOC_STEP : Nat := 512

/-- The UID newtype: `pub struct UID(UidTy)` with UidTy = u64.  Equality and
hashing are by the wrapped value, as the derived instances in the source. -/
structure UID where
  val : Nat
deriving DecidableEq

/-- Conversion impl Into&lt;UidTy&gt; for UID: returns the wrapped value. -/
def UID.intoU64 (u : UID) : Nat := u.val

/-- Derived Clone impl for UID: a plain copy of the value. -/
def UID.clone (u : UID) : UID := u

/-- One step of the decimal rendering loop used by the standard library
Display implementation for u64 (digits emitted most significant first). -/
def decDigits (n : Nat) : List Char :=
  if h : n < 10 then
    [Char.ofNat (48 + n)]
  else
    decDigits (n / 10) ++ [Char.ofNat (48 + n % 10)]
termination_by n
decreasing_by
  exact Nat.div_lt_self (by omega) (by omega)

/-- Decimal rendering of a u64 value as a string. -/
def natDecimal (n : Nat) : String := String.mk (decDigits n)

/-- The Debug impl for UID: `write!(f, "UID({})", self.0)` formats the
wrapped u64 value between the literal pieces of the format string. -/
def UID.debugFmt (u : UID) : String := "UID(" ++ natDecimal u.val ++ ")"

/-- The Display impl for UID: `write!(f, "{}", self)` formats `self` --
the UID itself, not the wrapped integer -- with the Display format again,
so the implementation calls itself on the same value.  We embed it with a
fuel argument bounding the recursion depth; `none` means the given depth
was exhausted without producing a string. -/
def UID.displayFmt : Nat → UID → Option String
  | 0, _ => none
  | fuel + 1, u => UID.displayFmt fuel u

/-- Decimal representation of a natural number, written from the
specification side via Mathlib base-10 digits (little-endian, hence the
reverse), to compare against the rendering loop embedded from the code. -/
def decimalRepr (n : Nat) : String :=
  if n = 0 then "0"
  else String.mk ((Nat.digits 10 n).reverse.map fun d => Char.ofNat (48 + d))

/-- Allocator state: the global counter GLOBAL_NEXT_UID together with the
thread-local cells UID_BASE and UID_REM, indexed by thread id. -/
structure AllocState where
  globalNextUid : Nat
  uidBase : Nat → Nat
  uidRem : Nat → Nat

/-- Pointwise update of one thread-local cell. -/
def setFn (f : Nat → Nat) (t v : Nat) : Nat → Nat :=
  fun s => if s = t then v else f s

/-- The fetch_add on GLOBAL_NEXT_UID: returns the pre-increment value and
the new counter.  AtomicU64::fetch_add wraps around on overflow. -/
def claimBatch (c : Nat) : Nat × Nat :=
  (c, (c + TH_ALLOC_STEP) % U64)

/-- UID::new, executed by thread t: if the thread-local remainder is zero,
claim a fresh batch from the global counter, store its base, set the
remainder to TH_ALLOC_STEP - 1 and return base + TH_ALLOC_STEP - 1;
otherwise decrement the remainder and return base + remainder. -/
def UID.new (σ : AllocState) (t : Nat) : UID × AllocState :=
  if σ.uidRem t = 0 then
    (⟨((claimBatch σ.globalNextUid).1 + TH_ALLOC_STEP - 1) % U64⟩,
     ⟨(claimBatch σ.globalNextUid).2,
      setFn σ.uidBase t (claimBatch σ.globalNextUid).1,
      setFn σ.uidRem t (TH_ALLOC_STEP - 1)⟩)
  else
    (⟨(σ.uidBase t + (σ.uidRem t - 1)) % U64⟩,
     ⟨σ.globalNextUid, σ.uidBase, setFn σ.uidRem t (σ.uidRem t - 1)⟩)

/-- The fresh process state: counter 0, all thread-local cells 0. -/
def initState : AllocState :=
  ⟨0, fun _ => 0, fun _ => 0⟩

/-- Run a schedule: each list entry is the id of the thread whose call to
UID::new is linearized next; collect the returned identifiers in order. -/
def run : List Nat → AllocState → List UID × AllocState
  | [], σ => ([], σ)
  | t :: ts, σ =>
    ((UID.new σ t).1 :: (run ts (UID.new σ t).2).1, (run ts (UID.new σ t).2).2)

/-- Ghost observer counting how many batch claims (fetch_add executions on
the global counter) a schedule performs. -/
def claims : List Nat → AllocState → Nat
  | [], _ => 0
  | t :: ts, σ => (if σ.uidRem t = 0 then 1 else 0) + claims ts (UID.new σ t).2

/-- Idealized step over unbounded integers: UID.new with the modular
reductions removed.  Used as a proof device; the claims themselves are
stated over the faithful wrapping model UID.new. -/
def newP (σ : AllocState) (t : Nat) : UID × AllocState :=
  if σ.uidRem t = 0 then
    (⟨σ.globalNextUid + TH_ALLOC_STEP - 1⟩,
     ⟨σ.globalNextUid + TH_ALLOC_STEP,
      setFn σ.uidBase t σ.globalNextUid,
      setFn σ.uidRem t (TH_ALLOC_STEP - 1)⟩)
  else
    (⟨σ.uidBase t + (σ.uidRem t - 1)⟩,
     ⟨σ.globalNextUid, σ.uidBase, setFn σ.uidRem t (σ.uidRem t - 1)⟩)

/-- Run of a schedule in the idealized unbounded-integer model. -/
def runP : List Nat → AllocState → List UID × AllocState
  | [], σ => ([], σ)
  | t :: ts, σ =>
    ((newP σ t).1 :: (runP ts (newP σ t).2).1, (runP ts (newP σ t).2).2)

/-- Single-thread state shape: all activity on thread 0, cells of the
other threads still at their initial value 0. -/
def st1 (c b r : Nat) : AllocState :=
  ⟨c, setFn (fun _ => 0) 0 b, setFn (fun _ => 0) 0 r⟩

/-- Modelled from the spec: the step of the specified allocation
algorithm (section 4.2 of the spec), phrased on the claimed batch lower
bound and the thread-local pair (base, remaining); returns the issued
value together with the new (base, remaining) pair.  Used only to compare
UID.new against the words of the specification. -/
def specNext (claimed base rem : Nat) : Nat × Nat × Nat :=
  if rem = 0 then (claimed + 512 - 1, claimed, 512 - 1)
  else (base + (rem - 1), base, rem - 1)

/-- Reachability invariant of the idealized model, relative to the list
of identifiers issued so far: the counter sits above every active batch,
batches of distinct threads are disjoint, the pending (not yet issued)
values of every batch were never issued, and the issued list has no
duplicate. -/
structure PInv (σ : AllocState) (outs : List UID) : Prop where
  rem_lt : ∀ t, σ.uidRem t < 512
  base_le : ∀ t, σ.uidRem t ≠ 0 → σ.uidBase t + 512 ≤ σ.globalNextUid
  disj : ∀ t s, t ≠ s → ∀ k, k < σ.uidRem t → ∀ l, l < σ.uidRem s →
    σ.uidBase t + k ≠ σ.uidBase s + l
  out_lt : ∀ u, u ∈ outs → u.val < σ.globalNextUid
  pend : ∀ t k, k < σ.uidRem t → UID.mk (σ.uidBase t + k) ∉ outs
  nodup : outs.Nodup

/-- Number of batches thread t still has to claim to serve its calls in
the schedule, given its current remainder. -/
def needOf (sched : List Nat) (σ : AllocState) (t : Nat) : Nat :=
  (sched.count t - σ.uidRem t + 511) / 512

/-- Total number of batches the whole schedule can still claim. -/
def needSum (sched : List Nat) (σ : AllocState) : Nat :=
  sched.toFinset.sum (needOf sched σ)

/-- A schedule realizing T threads that issue M identifiers each: every
entry names a thread below T and every thread below T occurs M times. -/
def isInterleaving (sched : List Nat) (T M : Nat) : Prop :=
  (∀ t, t ∈ sched → t < T) ∧ (∀ t, t < T → sched.count t = M)

/-- Counter value after n batch claims performed on the global counter
(iterating the fetch_add from the initial value 0); equivalently, the
value the next claim would return as its batch lower bound. -/
def counterAfter : Nat → Nat
  | 0 => 0
  | n + 1 => (claimBatch (counterAfter n)).2

theorem setFn_same (f : Nat → Nat) (t v : Nat) : setFn f t v t = v := by
  simp [setFn]

theorem setFn_other (f : Nat → Nat) (t v s : Nat) (h : s ≠ t) : setFn f t v s = f s := by
  simp [setFn, h]

theorem setFn_setFn (f : Nat → Nat) (t a b : Nat) :
    setFn (setFn f t a) t b = setFn f t b := by
  funext s
  by_cases h : s = t <;> simp [setFn, h]

theorem uid_new_eq_claim (σ : AllocState) (t : Nat) (h : σ.uidRem t = 0) :
    UID.new σ t =
      (⟨(σ.globalNextUid + 511) % U64⟩,
       ⟨(σ.globalNextUid + 512) % U64,
        setFn σ.uidBase t σ.globalNextUid,
        setFn σ.uidRem t 511⟩) := by
  simp only [UID.new, h, if_pos, claimBatch, TH_ALLOC_STEP]
  norm_num

theorem uid_new_eq_dec (σ : AllocState) (t : Nat) (h : σ.uidRem t ≠ 0) :
    UID.new σ t =
      (⟨(σ.uidBase t + (σ.uidRem t - 1)) % U64⟩,
       ⟨σ.globalNextUid, σ.uidBase, setFn σ.uidRem t (σ.uidRem t - 1)⟩) := by
  simp [UID.new, h]

theorem st1_init : initState = st1 0 0 0 := by
  unfold initState st1
  congr 1 <;> (funext s; by_cases h : s = 0 <;> simp [setFn, h])

theorem st1_rem (c b r : Nat) : (st1 c b r).uidRem 0 = r := by
  simp [st1, setFn]

theorem new_st1_claim (c b : Nat) :
    UID.new (st1 c b 0) 0 = (⟨(c + 511) % U64⟩, st1 ((c + 512) % U64) c 511) := by
  rw [uid_new_eq_claim _ _ (st1_rem c b 0)]
  simp [st1, setFn_setFn]

theorem new_st1_dec (c b r : Nat) (h : r ≠ 0) :
    UID.new (st1 c b r) 0 = (⟨(b + (r - 1)) % U64⟩, st1 c b (r - 1)) := by
  rw [uid_new_eq_dec _ _ (by rw [st1_rem]; exact h)]
  simp [st1, setFn_setFn, setFn_same]

theorem run_cons (t : Nat) (ts : List Nat) (σ : AllocState) :
    run (t :: ts) σ =
      ((UID.new σ t).1 :: (run ts (UID.new σ t).2).1, (run ts (UID.new σ t).2).2) := rfl

theorem run_snd_cons (t : Nat) (ts : List Nat) (σ : AllocState) :
    (run (t :: ts) σ).2 = (run ts (UID.new σ t).2).2 := rfl

theorem run_fst_cons (t : Nat) (ts : List Nat) (σ : AllocState) :
    (run (t :: ts) σ).1 = (UID.new σ t).1 :: (run ts (UID.new σ t).2).1 := rfl

theorem claims_cons (t : Nat) (ts : List Nat) (σ : AllocState) :
    claims (t :: ts) σ =
      (if σ.uidRem t = 0 then 1 else 0) + claims ts (UID.new σ t).2 := rfl

theorem run_append (a b : List Nat) (σ : AllocState) :
    run (a ++ b) σ =
      ((run a σ).1 ++ (run b (run a σ).2).1, (run b (run a σ).2).2) := by
  induction a generalizing σ with
  | nil => simp [run]
  | cons t ts ih => simp [run, ih]

theorem claims_append (a b : List Nat) (σ : AllocState) :
    claims (a ++ b) σ = claims a σ + claims b (run a σ).2 := by
  induction a generalizing σ with
  | nil => simp [claims, run]
  | cons t ts ih => simp [claims, run, ih]; omega

theorem run_length (sched : List Nat) (σ : AllocState) :
    (run sched σ).1.length = sched.length := by
  induction sched generalizing σ with
  | nil => simp [run]
  | cons t ts ih => simp [run, ih]

theorem run_st1_dec : ∀ (j c b r : Nat), j ≤ r →
    (run (List.replicate j 0) (st1 c b r)).2 = st1 c b (r - j) ∧
    claims (List.replicate j 0) (st1 c b r) = 0 := by
  intro j
  induction j with
  | zero => intro c b r h; simp [run, claims]
  | succ n ih =>
    intro c b r h
    have hr : r ≠ 0 := by omega
    rw [List.replicate_succ]
    constructor
    · simp only [run, new_st1_dec c b r hr]
      rw [(ih c b (r - 1) (by omega)).1]
      congr 1
      omega
    · simp only [claims, new_st1_dec c b r hr, st1_rem]
      rw [if_neg hr, (ih c b (r - 1) (by omega)).2]

theorem run_st1_block (c b : Nat) :
    (run (List.replicate 512 0) (st1 c b 0)).2 = st1 ((c + 512) % U64) c 0 ∧
    claims (List.replicate 512 0) (st1 c b 0) = 1 := by
  have hrep : List.replicate 512 (0 : Nat) = 0 :: List.replicate 511 0 := rfl
  have hstep := new_st1_claim c b
  have hdec := run_st1_dec 511 ((c + 512) % U64) c 511 (le_refl _)
  constructor
  · rw [hrep, run_snd_cons, hstep]
    simp only []
    rw [hdec.1]
  · rw [hrep, claims_cons, st1_rem, if_pos rfl, hstep]
    simp only []
    rw [hdec.2]

theorem run_blocks : ∀ k : Nat, ∃ b,
    (run (List.replicate (512 * k) 0) initState).2 = st1 ((512 * k) % U64) b 0 ∧
    claims (List.replicate (512 * k) 0) initState = k := by
  intro k
  induction k with
  | zero =>
    have h0 : List.replicate (512 * 0) (0 : Nat) = [] := by norm_num
    refine ⟨0, ?_, ?_⟩
    · rw [h0]
      show initState = st1 ((512 * 0) % U64) 0 0
      rw [st1_init]
      simp
    · rw [h0]
      rfl
  | succ n ih =>
    obtain ⟨b, hs, hc⟩ := ih
    have hsplit : 512 * (n + 1) = 512 * n + 512 := by ring
    refine ⟨(512 * n) % U64, ?_, ?_⟩
    · rw [hsplit, List.replicate_add, run_append, hs,
        (run_st1_block ((512 * n) % U64) b).1]
      rw [Nat.mod_add_mod]
    · rw [hsplit, List.replicate_add, claims_append, hs, hc,
        (run_st1_block ((512 * n) % U64) b).2]

theorem newP_eq_claim (σ : AllocState) (t : Nat) (h : σ.uidRem t = 0) :
    newP σ t =
      (⟨σ.globalNextUid + 511⟩,
       ⟨σ.globalNextUid + 512,
        setFn σ.uidBase t σ.globalNextUid,
        setFn σ.uidRem t 511⟩) := by
  simp only [newP, h, if_pos, TH_ALLOC_STEP]
  norm_num

theorem newP_eq_dec (σ : AllocState) (t : Nat) (h : σ.uidRem t ≠ 0) :
    newP σ t =
      (⟨σ.uidBase t + (σ.uidRem t - 1)⟩,
       ⟨σ.globalNextUid, σ.uidBase, setFn σ.uidRem t (σ.uidRem t - 1)⟩) := by
  simp [newP, h]

theorem runP_snd_cons (t : Nat) (ts : List Nat) (σ : AllocState) :
    (runP (t :: ts) σ).2 = (runP ts (newP σ t).2).2 := rfl

theorem runP_fst_cons (t : Nat) (ts : List Nat) (σ : AllocState) :
    (runP (t :: ts) σ).1 = (newP σ t).1 :: (runP ts (newP σ t).2).1 := rfl

theorem pinv_init : PInv initState [] := by
  refine ⟨?_, ?_, ?_, ?_, ?_, ?_⟩
  · intro t
    simp only [initState]
    omega
  · intro t h
    simp only [initState] at h
    omega
  · intro a b hab k hk
    simp only [initState] at hk
    omega
  · intro u hu
    cases hu
  · intro t k hk
    simp only [initState] at hk
    omega
  · exact List.nodup_nil

theorem newP_pinv (σ : AllocState) (outs : List UID) (t : Nat) (h : PInv σ outs) :
    PInv (newP σ t).2 (outs ++ [(newP σ t).1]) := by
  by_cases hr : σ.uidRem t = 0
  · rw [newP_eq_claim σ t hr]
    refine ⟨?_, ?_, ?_, ?_, ?_, ?_⟩
    · intro s
      simp only []
      by_cases hs : s = t
      · subst hs
        rw [setFn_same]
        omega
      · rw [setFn_other _ _ _ _ hs]
        exact h.rem_lt s
    · intro s hrem
      simp only [] at hrem ⊢
      by_cases hs : s = t
      · subst hs
        rw [setFn_same]
      · rw [setFn_other _ _ _ _ hs] at hrem ⊢
        have := h.base_le s hrem
        omega
    · intro a b hab k hk l hl
      simp only [] at hk hl ⊢
      by_cases ha : a = t
      · subst ha
        rw [setFn_same] at hk
        rw [setFn_same]
        have hbt : b ≠ a := fun e => hab e.symm
        rw [setFn_other _ _ _ _ hbt] at hl
        rw [setFn_other _ _ _ _ hbt]
        have hb0 : σ.uidRem b ≠ 0 := by omega
        have := h.base_le b hb0
        have := h.rem_lt b
        omega
      · rw [setFn_other _ _ _ _ ha] at hk
        rw [setFn_other _ _ _ _ ha]
        by_cases hb : b = t
        · subst hb
          rw [setFn_same] at hl
          rw [setFn_same]
          have ha0 : σ.uidRem a ≠ 0 := by omega
          have := h.base_le a ha0
          have := h.rem_lt a
          omega
        · rw [setFn_other _ _ _ _ hb] at hl
          rw [setFn_other _ _ _ _ hb]
          exact h.disj a b hab k hk l hl
    · intro u hu
      simp only [] at hu ⊢
      rcases List.mem_append.1 hu with h1 | h1
      · have := h.out_lt u h1
        omega
      · rw [List.mem_singleton] at h1
        subst h1
        show σ.globalNextUid + 511 < σ.globalNextUid + 512
        omega
    · intro s k hk hmem
      simp only [] at hk hmem
      rcases List.mem_append.1 hmem with h1 | h1
      · by_cases hs : s = t
        · subst hs
          rw [setFn_same] at hk
          rw [setFn_same] at h1
          have := h.out_lt _ h1
          simp only [] at this
          omega
        · rw [setFn_other _ _ _ _ hs] at hk h1
          exact h.pend s k hk h1
      · rw [List.mem_singleton, UID.mk.injEq] at h1
        by_cases hs : s = t
        · subst hs
          rw [setFn_same] at hk
          rw [setFn_same] at h1
          omega
        · rw [setFn_other _ _ _ _ hs] at hk h1
          have hs0 : σ.uidRem s ≠ 0 := by omega
          have hb := h.base_le s hs0
          have hrs := h.rem_lt s
          omega
    · simp only []
      rw [List.nodup_append]
      refine ⟨h.nodup, List.nodup_singleton _, ?_⟩
      rw [List.disjoint_singleton]
      intro hmem
      have := h.out_lt _ hmem
      simp only [] at this
      omega
  · rw [newP_eq_dec σ t hr]
    have hrt := h.rem_lt t
    refine ⟨?_, ?_, ?_, ?_, ?_, ?_⟩
    · intro s
      simp only []
      by_cases hs : s = t
      · subst hs
        rw [setFn_same]
        omega
      · rw [setFn_other _ _ _ _ hs]
        exact h.rem_lt s
    · intro s hrem
      simp only [] at hrem ⊢
      by_cases hs : s = t
      · subst hs
        rw [setFn_same] at hrem
        exact h.base_le s (by omega)
      · rw [setFn_other _ _ _ _ hs] at hrem
        exact h.base_le s hrem
    · intro a b hab k hk l hl
      simp only [] at hk hl ⊢
      have hka : k < σ.uidRem a := by
        by_cases ha : a = t
        · subst ha
          rw [setFn_same] at hk
          omega
        · rwa [setFn_other _ _ _ _ ha] at hk
      have hlb : l < σ.uidRem b := by
        by_cases hb : b = t
        · subst hb
          rw [setFn_same] at hl
          omega
        · rwa [setFn_other _ _ _ _ hb] at hl
      exact h.disj a b hab k hka l hlb
    · intro u hu
      simp only [] at hu ⊢
      rcases List.mem_append.1 hu with h1 | h1
      · exact h.out_lt u h1
      · rw [List.mem_singleton] at h1
        subst h1
        show σ.uidBase t + (σ.uidRem t - 1) < σ.globalNextUid
        have := h.base_le t hr
        omega
    · intro s k hk hmem
      simp only [] at hk hmem
      have hks : k < σ.uidRem s := by
        by_cases hs : s = t
        · subst hs
          rw [setFn_same] at hk
          omega
        · rwa [setFn_other _ _ _ _ hs] at hk
      rcases List.mem_append.1 hmem with h1 | h1
      · exact h.pend s k hks h1
      · rw [List.mem_singleton, UID.mk.injEq] at h1
        by_cases hs : s = t
        · subst hs
          rw [setFn_same] at hk
          omega
        · have := h.disj s t hs k hks (σ.uidRem t - 1) (by omega)
          exact this h1
    · simp only []
      rw [List.nodup_append]
      refine ⟨h.nodup, List.nodup_singleton _, ?_⟩
      rw [List.disjoint_singleton]
      exact h.pend t (σ.uidRem t - 1) (by omega)

theorem runP_pinv : ∀ (sched : List Nat) (σ : AllocState) (outs : List UID),
    PInv σ outs → PInv (runP sched σ).2 (outs ++ (runP sched σ).1) := by
  intro sched
  induction sched with
  | nil =>
    intro σ outs h
    simpa [runP] using h
  | cons t ts ih =>
    intro σ outs h
    have h2 := ih (newP σ t).2 (outs ++ [(newP σ t).1]) (newP_pinv σ outs t h)
    rw [runP_snd_cons, runP_fst_cons]
    simpa [List.append_assoc] using h2

theorem runP_out_nodup (sched : List Nat) : ((runP sched initState).1).Nodup := by
  have h := runP_pinv sched initState [] pinv_init
  simpa using h.nodup

theorem newP_counter_le (σ : AllocState) (t : Nat) :
    σ.globalNextUid ≤ (newP σ t).2.globalNextUid := by
  by_cases hr : σ.uidRem t = 0
  · rw [newP_eq_claim σ t hr]
    simp only []
    omega
  · rw [newP_eq_dec σ t hr]

theorem runP_counter_mono : ∀ (sched : List Nat) (σ : AllocState),
    σ.globalNextUid ≤ (runP sched σ).2.globalNextUid := by
  intro sched
  induction sched with
  | nil =>
    intro σ
    simp [runP]
  | cons t ts ih =>
    intro σ
    have h1 := newP_counter_le σ t
    have h2 := ih (newP σ t).2
    rw [runP_snd_cons]
    omega

theorem run_outs_eq : ∀ (sched : List Nat) (σm σp : AllocState) (outs : List UID),
    PInv σp outs →
    σm.uidBase = σp.uidBase → σm.uidRem = σp.uidRem →
    (σm.globalNextUid = σp.globalNextUid ∨
      (σp.globalNextUid = U64 ∧ σm.globalNextUid = 0)) →
    (runP sched σp).2.globalNextUid ≤ U64 →
    (run sched σm).1 = (runP sched σp).1 := by
  intro sched
  induction sched with
  | nil =>
    intro σm σp outs hp hB hR hC hU
    simp [run, runP]
  | cons t ts ih =>
    intro σm σp outs hp hB hR hC hU
    rw [runP_snd_cons] at hU
    have hmono := runP_counter_mono ts (newP σp t).2
    have hp' := newP_pinv σp outs t hp
    have hRt : σm.uidRem t = σp.uidRem t := by rw [hR]
    by_cases hr : σp.uidRem t = 0
    · have hrm : σm.uidRem t = 0 := by rw [hRt]; exact hr
      have hcounterP : (newP σp t).2.globalNextUid = σp.globalNextUid + 512 := by
        rw [newP_eq_claim σp t hr]
      rcases hC with hc | hwrap
      · have hle : σp.globalNextUid + 512 ≤ U64 := by
          rw [hcounterP] at hmono
          omega
        have hhead : (UID.new σm t).1 = (newP σp t).1 := by
          rw [uid_new_eq_claim σm t hrm, newP_eq_claim σp t hr]
          simp only []
          rw [hc]
          exact congrArg UID.mk (Nat.mod_eq_of_lt (by omega))
        have hB' : (UID.new σm t).2.uidBase = (newP σp t).2.uidBase := by
          rw [uid_new_eq_claim σm t hrm, newP_eq_claim σp t hr]
          simp only []
          rw [hB, hc]
        have hR' : (UID.new σm t).2.uidRem = (newP σp t).2.uidRem := by
          rw [uid_new_eq_claim σm t hrm, newP_eq_claim σp t hr]
          simp only []
          rw [hR]
        have hC' : (UID.new σm t).2.globalNextUid = (newP σp t).2.globalNextUid ∨
            ((newP σp t).2.globalNextUid = U64 ∧
              (UID.new σm t).2.globalNextUid = 0) := by
          rw [uid_new_eq_claim σm t hrm, newP_eq_claim σp t hr]
          simp only []
          rw [hc]
          rcases Nat.lt_or_ge (σp.globalNextUid + 512) U64 with hlt | hge
          · left
            exact Nat.mod_eq_of_lt hlt
          · right
            have heq : σp.globalNextUid + 512 = U64 := by omega
            rw [heq]
            exact ⟨rfl, Nat.mod_self U64⟩
        rw [run_fst_cons, runP_fst_cons, hhead,
          ih (UID.new σm t).2 (newP σp t).2 (outs ++ [(newP σp t).1]) hp' hB' hR' hC' hU]
      · exfalso
        rw [hcounterP, hwrap.1] at hmono
        omega
    · have hrm : σm.uidRem t ≠ 0 := by rw [hRt]; exact hr
      have hcounterP : (newP σp t).2.globalNextUid = σp.globalNextUid := by
        rw [newP_eq_dec σp t hr]
      have hple : σp.globalNextUid ≤ U64 := by
        rw [hcounterP] at hmono
        omega
      have hbl := hp.base_le t hr
      have hrl := hp.rem_lt t
      have hhead : (UID.new σm t).1 = (newP σp t).1 := by
        rw [uid_new_eq_dec σm t hrm, newP_eq_dec σp t hr]
        simp only []
        rw [hB, hRt]
        exact congrArg UID.mk (Nat.mod_eq_of_lt (by omega))
      have hB' : (UID.new σm t).2.uidBase = (newP σp t).2.uidBase := by
        rw [uid_new_eq_dec σm t hrm, newP_eq_dec σp t hr]
        simp only []
        exact hB
      have hR' : (UID.new σm t).2.uidRem = (newP σp t).2.uidRem := by
        rw [uid_new_eq_dec σm t hrm, newP_eq_dec σp t hr]
        simp only []
        rw [hR]
      have hC' : (UID.new σm t).2.globalNextUid = (newP σp t).2.globalNextUid ∨
          ((newP σp t).2.globalNextUid = U64 ∧
            (UID.new σm t).2.globalNextUid = 0) := by
        rw [uid_new_eq_dec σm t hrm, newP_eq_dec σp t hr]
        simp only []
        rcases hC with hc | hwrap
        · left
          exact hc
        · right
          exact hwrap
      rw [run_fst_cons, runP_fst_cons, hhead,
        ih (UID.new σm t).2 (newP σp t).2 (outs ++ [(newP σp t).1]) hp' hB' hR' hC' hU]

theorem runP_counter_le : ∀ (sched : List Nat) (σ : AllocState),
    (∀ t, σ.uidRem t < 512) →
    (runP sched σ).2.globalNextUid ≤ σ.globalNextUid + 512 * needSum sched σ := by
  intro sched
  induction sched with
  | nil =>
    intro σ hrem
    simp [runP]
  | cons t ts ih =>
    intro σ hrem
    rw [runP_snd_cons]
    by_cases hr : σ.uidRem t = 0
    · have hstate := newP_eq_claim σ t hr
      have hrem' : ∀ s, (newP σ t).2.uidRem s < 512 := by
        intro s
        rw [hstate]
        simp only []
        by_cases hs : s = t
        · subst hs
          rw [setFn_same]
          omega
        · rw [setFn_other _ _ _ _ hs]
          exact hrem s
      have hcounter' : (newP σ t).2.globalNextUid = σ.globalNextUid + 512 := by
        rw [hstate]
      have hih := ih (newP σ t).2 hrem'
      have hA : ∀ s, s ≠ t → needOf ts (newP σ t).2 s = needOf (t :: ts) σ s := by
        intro s hs
        unfold needOf
        rw [hstate]
        simp only []
        rw [setFn_other _ _ _ _ hs, List.count_cons_of_ne hs]
      have hB : needOf ts (newP σ t).2 t + 1 = needOf (t :: ts) σ t := by
        unfold needOf
        rw [hstate]
        simp only []
        rw [setFn_same, List.count_cons_self, hr]
        omega
      have hsum : needSum ts (newP σ t).2 + 1 ≤ needSum (t :: ts) σ := by
        unfold needSum
        rw [List.toFinset_cons]
        by_cases hmem : t ∈ ts.toFinset
        · rw [Finset.insert_eq_self.2 hmem]
          have hsplit2 : ts.toFinset.sum (needOf (t :: ts) σ) =
              ts.toFinset.sum (needOf ts (newP σ t).2) + 1 := by
            rw [show ts.toFinset.sum (needOf (t :: ts) σ) =
                ts.toFinset.sum (fun s =>
                  needOf ts (newP σ t).2 s + (if s = t then 1 else 0)) from
              Finset.sum_congr rfl (fun s _ => by
                by_cases hst : s = t
                · subst hst
                  rw [if_pos rfl, hB]
                · rw [if_neg hst, hA s hst]
                  omega)]
            rw [Finset.sum_add_distrib,
              Finset.sum_ite_eq' ts.toFinset t fun _ => 1, if_pos hmem]
          show ts.toFinset.sum (needOf ts (newP σ t).2) + 1 ≤
            ts.toFinset.sum (needOf (t :: ts) σ)
          omega
        · rw [Finset.sum_insert hmem]
          have hcount : ts.count t = 0 := by
            rw [List.count_eq_zero]
            intro hmm
            exact hmem (List.mem_toFinset.2 hmm)
          have hft : needOf (t :: ts) σ t = 1 := by
            unfold needOf
            rw [List.count_cons_self, hcount, hr]
          have hcongr : ts.toFinset.sum (needOf ts (newP σ t).2) =
              ts.toFinset.sum (needOf (t :: ts) σ) :=
            Finset.sum_congr rfl (fun s hs => hA s (fun e => hmem (e ▸ hs)))
          rw [hft, hcongr]
          show ts.toFinset.sum (needOf (t :: ts) σ) + 1 ≤
            1 + ts.toFinset.sum (needOf (t :: ts) σ)
          omega
      omega
    · have hstate := newP_eq_dec σ t hr
      have hrem' : ∀ s, (newP σ t).2.uidRem s < 512 := by
        intro s
        rw [hstate]
        simp only []
        by_cases hs : s = t
        · have hlt := hrem t
          subst hs
          rw [setFn_same]
          omega
        · rw [setFn_other _ _ _ _ hs]
          exact hrem s
      have hcounter' : (newP σ t).2.globalNextUid = σ.globalNextUid := by
        rw [hstate]
      have hih := ih (newP σ t).2 hrem'
      have hA : ∀ s, s ≠ t → needOf ts (newP σ t).2 s = needOf (t :: ts) σ s := by
        intro s hs
        unfold needOf
        rw [hstate]
        simp only []
        rw [setFn_other _ _ _ _ hs, List.count_cons_of_ne hs]
      have hB : needOf ts (newP σ t).2 t = needOf (t :: ts) σ t := by
        unfold needOf
        rw [hstate]
        simp only []
        rw [setFn_same, List.count_cons_self]
        omega
      have hsum : needSum ts (newP σ t).2 ≤ needSum (t :: ts) σ := by
        unfold needSum
        rw [List.toFinset_cons]
        by_cases hmem : t ∈ ts.toFinset
        · rw [Finset.insert_eq_self.2 hmem]
          have hcongr : ts.toFinset.sum (needOf ts (newP σ t).2) =
              ts.toFinset.sum (needOf (t :: ts) σ) :=
            Finset.sum_congr rfl (fun s _ => by
              by_cases hst : s = t
              · subst hst
                exact hB
              · exact hA s hst)
          exact le_of_eq hcongr
        · rw [Finset.sum_insert hmem]
          have hcongr : ts.toFinset.sum (needOf ts (newP σ t).2) =
              ts.toFinset.sum (needOf (t :: ts) σ) :=
            Finset.sum_congr rfl (fun s hs => hA s (fun e => hmem (e ▸ hs)))
          rw [hcongr]
          show ts.toFinset.sum (needOf (t :: ts) σ) ≤
            needOf (t :: ts) σ t + ts.toFinset.sum (needOf (t :: ts) σ)
          omega
      omega

theorem runP_length (sched : List Nat) (σ : AllocState) :
    (runP sched σ).1.length = sched.length := by
  induction sched generalizing σ with
  | nil => simp [runP]
  | cons t ts ih =>
    rw [runP_fst_cons]
    simp [ih]

theorem run_outs_eq_init (sched : List Nat)
    (h : (runP sched initState).2.globalNextUid ≤ U64) :
    (run sched initState).1 = (runP sched initState).1 :=
  run_outs_eq sched initState initState [] pinv_init rfl rfl (Or.inl rfl) h

theorem needSum_replicate (N : Nat) :
    needSum (List.replicate N 0) initState ≤ (N + 511) / 512 := by
  by_cases hN : N = 0
  · subst hN
    simp [needSum]
  · unfold needSum
    rw [List.toFinset_replicate_of_ne_zero hN, Finset.sum_singleton]
    unfold needOf
    rw [List.count_replicate_self]
    simp [initState]

theorem replicate_counter_le (N : Nat) (h : N ≤ U64) :
    (runP (List.replicate N 0) initState).2.globalNextUid ≤ U64 := by
  have hrem : ∀ t, initState.uidRem t < 512 := by
    intro t
    simp [initState]
  have hle := runP_counter_le (List.replicate N 0) initState hrem
  have hns := needSum_replicate N
  have hU : U64 = 18446744073709551616 := rfl
  have hinit : initState.globalNextUid = 0 := rfl
  rw [hinit] at hle
  omega

theorem interleaving_bound (T M : Nat) (sched : List Nat)
    (hI : isInterleaving sched T M) (hB : T * (M + 511) ≤ U64) :
    (runP sched initState).2.globalNextUid ≤ U64 := by
  have hrem : ∀ t, initState.uidRem t < 512 := by
    intro t
    simp [initState]
  have hle := runP_counter_le sched initState hrem
  have hconst : needSum sched initState =
      sched.toFinset.sum (fun _ => (M + 511) / 512) := by
    unfold needSum
    refine Finset.sum_congr rfl ?_
    intro s hs
    unfold needOf
    rw [hI.2 s (hI.1 s (List.mem_toFinset.1 hs))]
    simp [initState]
  have hcard : sched.toFinset.card ≤ T := by
    have hsub : sched.toFinset ⊆ Finset.range T := by
      intro s hs
      exact Finset.mem_range.2 (hI.1 s (List.mem_toFinset.1 hs))
    calc sched.toFinset.card ≤ (Finset.range T).card := Finset.card_le_card hsub
      _ = T := Finset.card_range T
  rw [hconst, Finset.sum_const, smul_eq_mul] at hle
  have h1 : 512 * (sched.toFinset.card * ((M + 511) / 512)) ≤ T * (M + 511) := by
    have h2 : 512 * ((M + 511) / 512) ≤ M + 511 := by omega
    calc 512 * (sched.toFinset.card * ((M + 511) / 512))
        = sched.toFinset.card * (512 * ((M + 511) / 512)) := by ring
      _ ≤ sched.toFinset.card * (M + 511) := Nat.mul_le_mul_left _ h2
      _ ≤ T * (M + 511) := Nat.mul_le_mul_right _ hcard
  have hinit : initState.globalNextUid = 0 := rfl
  rw [hinit] at hle
  omega

theorem interleaving_length (T M : Nat) (sched : List Nat)
    (hI : isInterleaving sched T M) : sched.length = T * M := by
  by_cases hM : M = 0
  · subst hM
    cases sched with
    | nil => simp
    | cons a as =>
      exfalso
      have ha := hI.1 a (by simp)
      have hc := hI.2 a ha
      rw [List.count_cons_self] at hc
      omega
  · have hrange : sched.toFinset = Finset.range T := by
      ext s
      rw [List.mem_toFinset, Finset.mem_range]
      constructor
      · exact hI.1 s
      · intro hs
        have hc := hI.2 s hs
        have hpos : 0 < sched.count s := by omega
        exact List.count_pos_iff.1 hpos
    have hsum := Multiset.toFinset_sum_count_eq (↑sched : Multiset Nat)
    rw [List.toFinset_coe, Multiset.coe_card] at hsum
    have hsum2 : (Finset.range T).sum
        (fun s => Multiset.count s (↑sched : Multiset Nat)) = T * M := by
      rw [Finset.sum_congr rfl (fun s hs => by
        rw [Multiset.coe_count, hI.2 s (Finset.mem_range.1 hs)])]
      rw [Finset.sum_const, Finset.card_range, smul_eq_mul]
    rw [← hsum, hrange, hsum2]

theorem counterAfter_eq (n : Nat) : counterAfter n = (512 * n) % U64 := by
  induction n with
  | zero => rfl
  | succ m ih =>
    show (claimBatch (counterAfter m)).2 = (512 * (m + 1)) % U64
    rw [ih]
    simp only [claimBatch, TH_ALLOC_STEP]
    rw [Nat.mod_add_mod]
    have harith : 512 * m + 512 = 512 * (m + 1) := by ring
    rw [harith]

theorem claims_replicate (n : Nat) :
    claims (List.replicate n 0) initState = (n + 511) / 512 := by
  obtain ⟨q, r, hrlt, hn⟩ : ∃ q r, r < 512 ∧ n = 512 * q + r :=
    ⟨n / 512, n % 512, Nat.mod_lt n (by omega), by omega⟩
  subst hn
  obtain ⟨bb, hs, hc⟩ := run_blocks q
  have hsplit : List.replicate (512 * q + r) (0 : Nat) =
      List.replicate (512 * q) 0 ++ List.replicate r 0 := List.replicate_add (512 * q) r 0
  rw [hsplit, claims_append, hc, hs]
  by_cases hr0 : r = 0
  · subst hr0
    have hnil : List.replicate 0 (0 : Nat) = [] := rfl
    rw [hnil]
    show q + claims [] (st1 ((512 * q) % U64) bb 0) = (512 * q + 0 + 511) / 512
    rw [show claims [] (st1 ((512 * q) % U64) bb 0) = 0 from rfl]
    omega
  · have h1 : List.replicate r (0 : Nat) = 0 :: List.replicate (r - 1) 0 := by
      nth_rewrite 1 [show r = (r - 1) + 1 from by omega]
      rw [List.replicate_succ]
    rw [h1, claims_cons, st1_rem, if_pos rfl, new_st1_claim]
    simp only []
    rw [(run_st1_dec (r - 1) (((512 * q) % U64 + 512) % U64) ((512 * q) % U64) 511
      (by omega)).2]
    omega

theorem run_range_claims : ∀ (m k : Nat) (σ : AllocState),
    (∀ j, k ≤ j → σ.uidRem j = 0) → σ.globalNextUid < U64 →
    (run (List.range' k m) σ).1 =
      (List.range m).map (fun i => UID.mk ((σ.globalNextUid + 512 * i + 511) % U64)) := by
  intro m
  induction m with
  | zero =>
    intro k σ hrem hlt
    simp [run]
  | succ m ih =>
    intro k σ hrem hlt
    rw [List.range'_succ, run_fst_cons]
    have hk : σ.uidRem k = 0 := hrem k (le_refl k)
    rw [uid_new_eq_claim σ k hk]
    simp only []
    have hrem2 : ∀ j, k + 1 ≤ j → (setFn σ.uidRem k 511) j = 0 := by
      intro j hj
      rw [setFn_other _ _ _ _ (by omega)]
      exact hrem j (by omega)
    have hlt2 : (σ.globalNextUid + 512) % U64 < U64 :=
      Nat.mod_lt _ (by norm_num [U64])
    rw [ih (k + 1)
      ⟨(σ.globalNextUid + 512) % U64, setFn σ.uidBase k σ.globalNextUid,
        setFn σ.uidRem k 511⟩ hrem2 hlt2]
    rw [List.range_succ_eq_map, List.map_cons, List.map_map]
    have hhead : (UID.mk ((σ.globalNextUid + 511) % U64)) =
        UID.mk ((σ.globalNextUid + 512 * 0 + 511) % U64) := by
      rw [show σ.globalNextUid + 512 * 0 + 511 = σ.globalNextUid + 511 from by ring]
    have htail : (List.range m).map (fun i =>
          UID.mk (((σ.globalNextUid + 512) % U64 + 512 * i + 511) % U64)) =
        (List.range m).map ((fun i =>
          UID.mk ((σ.globalNextUid + 512 * i + 511) % U64)) ∘ Nat.succ) := by
      refine List.map_congr_left ?_
      intro i hi
      show UID.mk (((σ.globalNextUid + 512) % U64 + 512 * i + 511) % U64) =
        UID.mk ((σ.globalNextUid + 512 * (i + 1) + 511) % U64)
      refine congrArg UID.mk ?_
      calc ((σ.globalNextUid + 512) % U64 + 512 * i + 511) % U64
          = ((σ.globalNextUid + 512) % U64 + (512 * i + 511)) % U64 := by
            rw [Nat.add_assoc]
        _ = (σ.globalNextUid + 512 + (512 * i + 511)) % U64 := Nat.mod_add_mod _ _ _
        _ = (σ.globalNextUid + 512 * (i + 1) + 511) % U64 := by
            rw [show σ.globalNextUid + 512 + (512 * i + 511) =
              σ.globalNextUid + 512 * (i + 1) + 511 from by ring]
    rw [hhead, htail]

theorem run_range_outs (n : Nat) :
    (run (List.range n) initState).1 =
      (List.range n).map (fun i => UID.mk ((512 * i + 511) % U64)) := by
  have hlt0 : initState.globalNextUid < U64 := by
    show (0 : Nat) < U64
    norm_num [U64]
  have h := run_range_claims n 0 initState (fun j _ => rfl) hlt0
  rw [← List.range_eq_range'] at h
  rw [h]
  refine List.map_congr_left ?_
  intro i hi
  show UID.mk ((initState.globalNextUid + 512 * i + 511) % U64) =
    UID.mk ((512 * i + 511) % U64)
  refine congrArg UID.mk ?_
  rw [show initState.globalNextUid + 512 * i + 511 = 512 * i + 511 from by
    rw [show initState.globalNextUid = 0 from rfl]
    ring]

theorem decDigits_eq (n : Nat) :
    decDigits n = if n = 0 then ['0']
      else (Nat.digits 10 n).reverse.map fun d => Char.ofNat (48 + d) := by
  induction n using Nat.strong_induction_on with
  | _ n ih =>
    rw [decDigits]
    by_cases h10 : n < 10
    · rw [dif_pos h10]
      by_cases h0 : n = 0
      · subst h0
        rw [if_pos rfl]
      · rw [if_neg h0, Nat.digits_of_lt 10 n h0 h10]
        rfl
    · rw [dif_neg h10]
      have h0 : n ≠ 0 := by omega
      rw [if_neg h0]
      have hq0 : n / 10 ≠ 0 := by omega
      have hlt : n / 10 < n := Nat.div_lt_self (by omega) (by omega)
      rw [ih (n / 10) hlt, if_neg hq0]
      rw [Nat.digits_def' (by norm_num : (1 : Nat) < 10) (by omega : 0 < n)]
      rw [List.reverse_cons, List.map_append]
      rfl

/-- C1 (amended): starting from the fresh process state, N calls to
UID::new on a single thread (schedule: N steps of thread 0) return
pairwise distinct identifiers provided N does not exceed 2 ^ 64.  The
unbounded claim fails at N = 2 ^ 64 + 1 because the u64 counter wraps,
see the counterexample. -/
theorem c1_single_thread_unique (N : Nat) (h : N ≤ U64) :
    ((run (List.replicate N 0) initState).1).Nodup := by
  rw [run_outs_eq_init (List.replicate N 0) (replicate_counter_le N h)]
  exact runP_out_nodup (List.replicate N 0)

theorem c1_single_thread_unique_witness :
    ((run (List.replicate 1000 0) initState).1).Nodup :=
  c1_single_thread_unique 1000 (by decide)

/-- C1 counterexample: after 2 ^ 64 single-thread calls the wrapped
counter and the remainder are back at 0, so call number 2 ^ 64 + 1
claims the batch [0, 512) again and returns the identifier 511, which the
very first call already returned: the outputs of 2 ^ 64 + 1 calls are not
pairwise distinct. -/
theorem c1_counterexample :
    ¬ ((run (List.replicate (U64 + 1) 0) initState).1).Nodup := by
  intro hnd
  obtain ⟨b, hs, _⟩ := run_blocks 36028797018963968
  have hU : (512 : Nat) * 36028797018963968 = U64 := by norm_num [U64]
  rw [hU, Nat.mod_self] at hs
  have hrep : List.replicate (U64 + 1) (0 : Nat) =
      List.replicate U64 0 ++ List.replicate 1 0 := List.replicate_add U64 1 0
  have houts1 : (run (List.replicate (U64 + 1) 0) initState).1 =
      (run (List.replicate U64 0) initState).1 ++
      (run (List.replicate 1 0) ((run (List.replicate U64 0) initState).2)).1 := by
    rw [hrep, run_append]
  rw [hs] at houts1
  have hlast : (run (List.replicate 1 0) (st1 0 b 0)).1 = [UID.mk 511] := by
    have h1 : List.replicate 1 (0 : Nat) = [0] := rfl
    rw [h1, run_fst_cons, new_st1_claim]
    simp only []
    rw [show ((0 : Nat) + 511) % U64 = 511 from by norm_num [U64]]
    rfl
  rw [hlast] at houts1
  have hU64succ : U64 = (U64 - 1) + 1 := by norm_num [U64]
  have hrep2 : List.replicate U64 (0 : Nat) = 0 :: List.replicate (U64 - 1) 0 := by
    nth_rewrite 1 [hU64succ]
    rw [List.replicate_succ]
  have hheadA : ∃ tl, (run (List.replicate U64 0) initState).1 = UID.mk 511 :: tl := by
    rw [hrep2, run_fst_cons, st1_init, new_st1_claim]
    simp only []
    refine ⟨(run (List.replicate (U64 - 1) 0) (st1 ((0 + 512) % U64) 0 511)).1, ?_⟩
    rw [show ((0 : Nat) + 511) % U64 = 511 from by norm_num [U64]]
  obtain ⟨tl, htl⟩ := hheadA
  rw [htl] at houts1
  rw [houts1, List.cons_append] at hnd
  exact (List.nodup_cons.1 hnd).1
    (List.mem_append_right _ (List.mem_singleton.2 rfl))

/-- C2 (amended): the batch claim (the fetch_add on the global counter)
returns the pre-increment value as the lower bound; starting from 0, the
counter after n claims equals (512 * n) mod 2 ^ 64; and the returned
ranges [result, result + 512) of two distinct claims among the first
2 ^ 55 are disjoint.  The exact equality counter = n * 512 and the
unbounded disjointness fail once the 64-bit counter wraps, see the
counterexample. -/
theorem c2_batch_claims (n i j x : Nat) (hij : i < j)
    (hj : j < 36028797018963968) :
    (claimBatch (counterAfter n)).1 = counterAfter n ∧
    counterAfter n = (512 * n) % U64 ∧
    ¬ (counterAfter i ≤ x ∧ x < counterAfter i + 512 ∧
       counterAfter j ≤ x ∧ x < counterAfter j + 512) := by
  refine ⟨rfl, counterAfter_eq n, ?_⟩
  rw [counterAfter_eq i, counterAfter_eq j]
  have hU : U64 = 18446744073709551616 := rfl
  have hi2 : (512 * i) % U64 = 512 * i := Nat.mod_eq_of_lt (by omega)
  have hj2 : (512 * j) % U64 = 512 * j := Nat.mod_eq_of_lt (by omega)
  rw [hi2, hj2]
  omega

theorem c2_batch_claims_witness :
    (claimBatch (counterAfter 3)).1 = counterAfter 3 ∧
    counterAfter 3 = (512 * 3) % U64 ∧
    ¬ (counterAfter 0 ≤ 0 ∧ 0 < counterAfter 0 + 512 ∧
       counterAfter 1 ≤ 0 ∧ 0 < counterAfter 1 + 512) :=
  c2_batch_claims 3 0 1 0 (by decide) (by decide)

/-- C2 counterexample: after 2 ^ 55 claims the wrapping u64 counter holds
0, not 2 ^ 55 * 512, and the next claim returns the same lower bound 0 as
the very first claim, so the two ranges coincide instead of being
disjoint. -/
theorem c2_counterexample :
    counterAfter 36028797018963968 ≠ 512 * 36028797018963968 ∧
    counterAfter 36028797018963968 = counterAfter 0 := by
  have h := counterAfter_eq 36028797018963968
  have hU : (512 : Nat) * 36028797018963968 = U64 := by norm_num [U64]
  rw [hU, Nat.mod_self] at h
  refine ⟨?_, ?_⟩
  · rw [h, hU]
    norm_num [U64]
  · rw [h]
    rfl

/-- C3: UID::new follows exactly the specified algorithm: on an empty
remainder it claims a batch at the current counter value, stores it as
base, sets remaining to 511 and returns base + 511; otherwise it
decrements remaining and returns base + remaining.  The hypotheses hold
at every state the allocator can reach from the fresh state: the counter
is a multiple of 512 below 2 ^ 64, the remainder is below 512, and an
active batch lies at least 512 below the counter. -/
theorem c3_follows_spec_algorithm (σ : AllocState) (t : Nat)
    (h1 : σ.uidRem t < 512)
    (h2 : σ.uidRem t ≠ 0 → σ.uidBase t + 512 ≤ σ.globalNextUid)
    (h3 : σ.globalNextUid < U64) (h4 : 512 ∣ σ.globalNextUid) :
    ((UID.new σ t).1.val, (UID.new σ t).2.uidBase t, (UID.new σ t).2.uidRem t) =
      specNext σ.globalNextUid (σ.uidBase t) (σ.uidRem t) := by
  have hU : U64 = 18446744073709551616 := rfl
  by_cases hr : σ.uidRem t = 0
  · rw [uid_new_eq_claim σ t hr]
    simp only [setFn_same]
    rw [hr]
    unfold specNext
    rw [if_pos rfl]
    have hc : (σ.globalNextUid + 511) % U64 = σ.globalNextUid + 511 :=
      Nat.mod_eq_of_lt (by omega)
    rw [hc, show σ.globalNextUid + 512 - 1 = σ.globalNextUid + 511 from by omega]
  · rw [uid_new_eq_dec σ t hr]
    simp only [setFn_same]
    unfold specNext
    rw [if_neg hr]
    have hb := h2 hr
    have hm : (σ.uidBase t + (σ.uidRem t - 1)) % U64 =
        σ.uidBase t + (σ.uidRem t - 1) := Nat.mod_eq_of_lt (by omega)
    rw [hm]

theorem c3_follows_spec_algorithm_witness :
    ((UID.new initState 0).1.val, (UID.new initState 0).2.uidBase 0,
      (UID.new initState 0).2.uidRem 0) =
      specNext initState.globalNextUid (initState.uidBase 0) (initState.uidRem 0) :=
  c3_follows_spec_algorithm initState 0 (by decide)
    (fun h => absurd rfl h) (by decide) ⟨0, rfl⟩

/-- C4 (amended): for T threads each issuing M identifiers, under any
interleaving of their calls, the union of all returned identifiers has
exactly T * M distinct elements, provided T * (M + 511) does not exceed
2 ^ 64 (so the claimed batches cannot wrap the 64-bit counter).  The
unbounded claim fails with 2 ^ 55 + 1 single-allocation threads, see the
counterexample. -/
theorem c4_multi_thread_unique (T M : Nat) (sched : List Nat)
    (hI : isInterleaving sched T M) (hB : T * (M + 511) ≤ U64) :
    ((run sched initState).1).toFinset.card = T * M := by
  rw [run_outs_eq_init sched (interleaving_bound T M sched hI hB)]
  rw [List.toFinset_card_of_nodup (runP_out_nodup sched)]
  rw [runP_length sched initState]
  exact interleaving_length T M sched hI

theorem c4_multi_thread_unique_witness :
    ((run [0, 1, 1, 0] initState).1).toFinset.card = 2 * 2 :=
  c4_multi_thread_unique 2 2 [0, 1, 1, 0] ⟨by decide, by decide⟩ (by decide)

/-- C4 counterexample: with T = 2 ^ 55 + 1 threads each issuing a single
identifier (the schedule runs each thread once in order), thread number
2 ^ 55 receives the identifier 511 again, because its fetch_add wrapped
the counter back to 0; the union of the T identifiers therefore has fewer
than T * 1 distinct elements. -/
theorem c4_counterexample :
    isInterleaving (List.range 36028797018963969) 36028797018963969 1 ∧
    ((run (List.range 36028797018963969) initState).1).toFinset.card ≠
      36028797018963969 * 1 := by
  constructor
  · constructor
    · intro t ht
      exact List.mem_range.1 ht
    · intro t ht
      have hnd := List.nodup_range 36028797018963969
      have hle := List.nodup_iff_count_le_one.1 hnd t
      have hpos := List.count_pos_iff.2 (List.mem_range.2 ht)
      omega
  · intro hcard
    have houts := run_range_outs 36028797018963969
    have hdup : ¬ ((run (List.range 36028797018963969) initState).1).Nodup := by
      rw [houts]
      intro hnd
      have hinj := (List.nodup_map_iff_inj_on
        (List.nodup_range 36028797018963969)).1 hnd
      have h0m : (0 : Nat) ∈ List.range 36028797018963969 :=
        List.mem_range.2 (by norm_num)
      have h55m : (36028797018963968 : Nat) ∈ List.range 36028797018963969 :=
        List.mem_range.2 (by norm_num)
      have hfeq : UID.mk ((512 * 0 + 511) % U64) =
          UID.mk ((512 * 36028797018963968 + 511) % U64) := by
        refine congrArg UID.mk ?_
        decide
      have h055 := hinj 0 h0m 36028797018963968 h55m hfeq
      norm_num at h055
    apply hdup
    have hlen : ((run (List.range 36028797018963969) initState).1).length =
        36028797018963969 := by
      rw [run_length, List.length_range]
    rw [List.card_toFinset] at hcard
    have hdedup := List.dedup_sublist ((run (List.range 36028797018963969) initState).1)
    have heq := List.Sublist.eq_of_length hdedup
      (by rw [hcard, hlen, Nat.mul_one])
    rw [← List.dedup_eq_self]
    exact heq

/-- C5: the Display implementation never produces a string: it formats
self with the Display format again, recursing on the same identifier, so
for every finite recursion depth it fails to terminate with output (at
runtime this is an infinite recursion ending in a stack overflow).  In
particular it does not render a string containing the numeric value. -/
theorem c5_display_never_renders : ∀ (fuel : Nat) (v : Nat),
    UID.displayFmt fuel (UID.mk v) = none := by
  intro fuel
  induction fuel with
  | zero =>
    intro v
    rfl
  | succ m ih =>
    intro v
    exact ih v

/-- C6: UID::new leaves the thread-local cells of every other thread
untouched; when the calling thread still has remainder, the global
counter is unchanged; and over n consecutive single-thread allocations
from the fresh state the counter is claimed exactly ceil(n / 512) times,
i.e. once per 512 allocations. -/
theorem c6_frame (σ : AllocState) (t s n : Nat) (hs : s ≠ t) :
    (UID.new σ t).2.uidBase s = σ.uidBase s ∧
    (UID.new σ t).2.uidRem s = σ.uidRem s ∧
    (σ.uidRem t ≠ 0 → (UID.new σ t).2.globalNextUid = σ.globalNextUid) ∧
    claims (List.replicate n 0) initState = (n + 511) / 512 := by
  refine ⟨?_, ?_, ?_, claims_replicate n⟩
  · by_cases hr : σ.uidRem t = 0
    · rw [uid_new_eq_claim σ t hr]
      simp only []
      rw [setFn_other _ _ _ _ hs]
    · rw [uid_new_eq_dec σ t hr]
  · by_cases hr : σ.uidRem t = 0
    · rw [uid_new_eq_claim σ t hr]
      simp only []
      rw [setFn_other _ _ _ _ hs]
    · rw [uid_new_eq_dec σ t hr]
      simp only []
      rw [setFn_other _ _ _ _ hs]
  · intro hrt
    rw [uid_new_eq_dec σ t hrt]

theorem c6_frame_witness :
    (UID.new initState 0).2.uidBase 1 = initState.uidBase 1 ∧
    (UID.new initState 0).2.uidRem 1 = initState.uidRem 1 ∧
    (initState.uidRem 0 ≠ 0 →
      (UID.new initState 0).2.globalNextUid = initState.globalNextUid) ∧
    claims (List.replicate 1000 0) initState = (1000 + 511) / 512 :=
  c6_frame initState 0 1 1000 (by decide)

/-- C7: on the fresh process state, the first two single-thread calls to
UID::new return two different identifiers and both values lie in
[0, 512). -/
theorem c7_first_two_calls :
    ((run (List.replicate 2 0) initState).1).Nodup ∧
    (∀ u ∈ (run (List.replicate 2 0) initState).1, u.val < 512) ∧
    (run (List.replicate 2 0) initState).1.length = 2 := by
  decide

/-- C8: converting an identifier (after a clone, as the conversion
consumes its argument) to the underlying u64 and wrapping the integer
back with the raw constructor yields the original identifier. -/
theorem c8_roundtrip (u : UID) : UID.mk (UID.intoU64 (UID.clone u)) = u := by
  cases u
  rfl

/-- C9: every call to UID::new, from any state the allocator can reach
(hypotheses as in the C3 theorem), leaves the calling thread with a
remainder strictly below 512, and the returned value equals the thread
base plus the remainder after the call, hence lies in [base, base + 512). -/
theorem c9_invariant (σ : AllocState) (t : Nat)
    (h1 : σ.uidRem t < 512)
    (h2 : σ.uidRem t ≠ 0 → σ.uidBase t + 512 ≤ σ.globalNextUid)
    (h3 : σ.globalNextUid < U64) (h4 : 512 ∣ σ.globalNextUid) :
    (UID.new σ t).2.uidRem t < 512 ∧
    (UID.new σ t).1.val = (UID.new σ t).2.uidBase t + (UID.new σ t).2.uidRem t ∧
    (UID.new σ t).1.val < (UID.new σ t).2.uidBase t + 512 := by
  have hU : U64 = 18446744073709551616 := rfl
  by_cases hr : σ.uidRem t = 0
  · rw [uid_new_eq_claim σ t hr]
    simp only [setFn_same]
    have hc : (σ.globalNextUid + 511) % U64 = σ.globalNextUid + 511 :=
      Nat.mod_eq_of_lt (by omega)
    rw [hc]
    refine ⟨by omega, rfl, by omega⟩
  · rw [uid_new_eq_dec σ t hr]
    simp only [setFn_same]
    have hb := h2 hr
    have hm : (σ.uidBase t + (σ.uidRem t - 1)) % U64 =
        σ.uidBase t + (σ.uidRem t - 1) := Nat.mod_eq_of_lt (by omega)
    rw [hm]
    refine ⟨by omega, rfl, by omega⟩

theorem c9_invariant_witness :
    (UID.new initState 0).2.uidRem 0 < 512 ∧
    (UID.new initState 0).1.val =
      (UID.new initState 0).2.uidBase 0 + (UID.new initState 0).2.uidRem 0 ∧
    (UID.new initState 0).1.val < (UID.new initState 0).2.uidBase 0 + 512 :=
  c9_invariant initState 0 (by decide) (fun h => absurd rfl h) (by decide) ⟨0, rfl⟩

/-- C10: the Debug rendering is a total function of the identifier value
and produces exactly the string UID( followed by the decimal
representation of the value followed by the closing parenthesis; two
identifiers with equal value therefore render identically. -/
theorem c10_debug_exact (u : UID) :
    UID.debugFmt u = "UID(" ++ decimalRepr u.val ++ ")" := by
  unfold UID.debugFmt natDecimal decimalRepr
  rw [decDigits_eq]
  by_cases h0 : u.val = 0
  · rw [if_pos h0, if_pos h0]
  · rw [if_neg h0, if_neg h0]
